import Mathlib

/-!
Verification of the connection-management and peer-casting core of the
`aw` repository: the cast dispatcher (`cast` package), the listener engine
(`tcp.ListenWithListener`) and the dialer engine (`tcp.Dial`), shallowly
embedded as executable Lean functions over explicit inputs (directory
contents, per-iteration accept results, per-attempt dial outcomes, and an
oracle for each cancellation race).
-/

/-! ## Cast dispatcher (package `cast`)

`Cast` resolves the destination through the directory (`dht.PeerAddress`),
wraps the body in a versioned envelope and races the handoff to the
message sink against `ctx.Done()`.  `AcceptCast` delivers locally when the
destination equals the local identity and otherwise fails with a
no-forwarding-path error.  Channels are modelled as the list of values the
call hands off (empty or a singleton); the select race is decided by a
boolean oracle in the context model.
-/

/-- Peer identities: opaque and comparable; modelled as naturals. -/
abbrev PeerID := Nat

/-- Message bodies: opaque payloads, never inspected by the core. -/
abbrev MessageBody := Nat

/-- Network addresses, as produced by `PeerAddress.NetworkAddress()`. -/
abbrev NetworkAddress := Nat

/-- Modelled from the spec: the directory's address record for a peer; the
core only reads its network address (source calls `peerAddr.NetworkAddress()`;
the `protocol.PeerAddress` type itself is outside this repository's sources). -/
structure PeerAddress where
  networkAddress : NetworkAddress
deriving DecidableEq, Repr

/-- Error values that can become the cause inside an `ErrCastingMessage`:
an error produced outside the `cast` package (a directory lookup error or
`ctx.Err()`, identified by a code), or one of the two errors the package
itself constructs with `fmt.Errorf`. -/
inductive CastErr where
  | external (code : Nat)
  | nilPeerAddress
  | noPeerForForwarding
deriving DecidableEq, Repr

/-- ErrCastingMessage: the typed casting-failure error.  It embeds the
underlying cause and records the destination peer identity. -/
structure ErrCastingMessage where
  err : CastErr
  peerID : PeerID
deriving DecidableEq, Repr

/-- newErrCastingMessage wraps a cause together with the destination peer. -/
def newErrCastingMessage (peerID : PeerID) (err : CastErr) : ErrCastingMessage :=
  { err := err, peerID := peerID }

/-- Message versions; the dispatcher always uses `V1`. -/
inductive Version where
  | v1
deriving DecidableEq, Repr

/-- Message variants; the dispatcher always uses the `Cast` variant. -/
inductive Variant where
  | cast
deriving DecidableEq, Repr

/-- Messages: a versioned envelope around an opaque body. -/
structure Message where
  version : Version
  variant : Variant
  body : MessageBody
deriving DecidableEq, Repr

/-- Modelled from the spec: `protocol.NewMessage` (outside this repository's
sources) builds the versioned envelope of the given kind around the body. -/
def NewMessage (version : Version) (variant : Variant) (body : MessageBody) : Message :=
  { version := version, variant := variant, body := body }

/-- MessageSend: what `Cast` hands to the outbound message sink. -/
structure MessageSend where
  sendTo : NetworkAddress
  message : Message
deriving DecidableEq, Repr

/-- EventMessageReceived: what `AcceptCast` hands to the event sink. -/
structure EventMessageReceived where
  time : Nat
  message : MessageBody
deriving DecidableEq, Repr

/-- The directory consulted by `Cast`: `PeerAddress(dest)` returns an address
and an error, each possibly nil, exactly as the Go interface does. -/
structure DHT where
  peerAddress : PeerID → Option PeerAddress × Option CastErr

/-- Context model for one dispatcher call: whether `ctx.Done()` wins the
select race against the sink, the cause `ctx.Err()` would report (as an
external error code), and the current time used for received events. -/
structure CastCtx where
  doneBeforeSend : Bool
  errCode : Nat
  now : Nat
deriving DecidableEq, Repr

/-- The caster: directory, local identity.  The message and event channels
are modelled as outputs of each call rather than fields. -/
structure Caster where
  dht : DHT
  me : PeerID

/-- Caster.Cast, embedded from the source: resolve the address (error, then
nil check), build the envelope, then race the handoff against cancellation.
The second component is the list of requests handed to the outbound sink. -/
def Caster.Cast (c : Caster) (ctx : CastCtx) (dest : PeerID) (body : MessageBody) :
    Except ErrCastingMessage Unit × List MessageSend :=
  match c.dht.peerAddress dest with
  | (_, some err) => (Except.error (newErrCastingMessage dest err), [])
  | (none, none) => (Except.error (newErrCastingMessage dest CastErr.nilPeerAddress), [])
  | (some peerAddr, none) =>
      let send : MessageSend :=
        { sendTo := peerAddr.networkAddress, message := NewMessage Version.v1 Variant.cast body }
      if ctx.doneBeforeSend then
        (Except.error (newErrCastingMessage dest (CastErr.external ctx.errCode)), [])
      else
        (Except.ok (), [send])

/-- Caster.AcceptCast, embedded from the source: deliver locally iff the
destination equals the local identity, racing the event handoff against
cancellation; otherwise fail with the no-forwarding-path cause.  The second
component is the list of events handed to the event sink. -/
def Caster.AcceptCast (c : Caster) (ctx : CastCtx) (dest : PeerID) (body : MessageBody) :
    Except ErrCastingMessage Unit × List EventMessageReceived :=
  if dest = c.me then
    if ctx.doneBeforeSend then
      (Except.error (newErrCastingMessage dest (CastErr.external ctx.errCode)), [])
    else
      (Except.ok (), [{ time := ctx.now, message := body }])
  else
    (Except.error (newErrCastingMessage dest CastErr.noPeerForForwarding), [])

/-! ### Theorems about the cast dispatcher -/

/-- C4: if the directory lookup returns an error, or returns a nil address,
`Cast` returns the typed casting-failed error carrying the destination
identity and the underlying cause — the lookup error itself in the first
case, the distinct nil-peer-address cause in the second — and nothing is
handed to the outbound sink. -/
theorem cast_resolution_failure (c : Caster) (ctx : CastCtx) (dest : PeerID)
    (body : MessageBody) :
    (∀ a e, c.dht.peerAddress dest = (a, some e) →
      c.Cast ctx dest body = (Except.error (newErrCastingMessage dest e), [])) ∧
    (c.dht.peerAddress dest = (none, none) →
      c.Cast ctx dest body =
        (Except.error (newErrCastingMessage dest CastErr.nilPeerAddress), [])) := by
  constructor
  · intro a e h
    unfold Caster.Cast
    rw [h]
    cases a <;> rfl
  · intro h
    unfold Caster.Cast
    rw [h]

/-- Witness for C4: a concrete caster whose directory reports a lookup error
for peer 5, on which `Cast` returns the typed error with that cause. -/
theorem cast_resolution_failure_witness :
    (Caster.mk ⟨fun _ => (none, some (CastErr.external 3))⟩ 0).Cast ⟨false, 9, 0⟩ 5 11 =
      (Except.error (newErrCastingMessage 5 (CastErr.external 3)), []) :=
  (cast_resolution_failure (Caster.mk ⟨fun _ => (none, some (CastErr.external 3))⟩ 0)
      ⟨false, 9, 0⟩ 5 11).1 none (CastErr.external 3) rfl

/-- C5: when the directory maps the destination to an address and the
cancellation signal does not fire before the sink accepts, `Cast` enqueues
exactly one send request carrying that address and a V1 cast envelope of the
body, and returns no error; when cancellation fires first, `Cast` returns the
casting-failed error wrapping the cancellation cause and enqueues nothing; in
every case at most one request is handed off. -/
theorem cast_success_single_handoff (c : Caster) (ctx : CastCtx) (dest : PeerID)
    (body : MessageBody) (a : PeerAddress)
    (hres : c.dht.peerAddress dest = (some a, none)) :
    (ctx.doneBeforeSend = false →
      c.Cast ctx dest body =
        (Except.ok (), [{ sendTo := a.networkAddress,
                          message := NewMessage Version.v1 Variant.cast body }])) ∧
    (ctx.doneBeforeSend = true →
      c.Cast ctx dest body =
        (Except.error (newErrCastingMessage dest (CastErr.external ctx.errCode)), [])) ∧
    (c.Cast ctx dest body).2.length ≤ 1 := by
  refine ⟨?_, ?_, ?_⟩
  · intro hdone
    unfold Caster.Cast
    rw [hres]
    simp [hdone]
  · intro hdone
    unfold Caster.Cast
    rw [hres]
    simp [hdone]
  · unfold Caster.Cast
    rw [hres]
    by_cases hdone : ctx.doneBeforeSend <;> simp [hdone]

/-- Witness for C5: a concrete directory mapping peer 5 to address 42; the
uncancelled call enqueues exactly the expected request and succeeds. -/
theorem cast_success_single_handoff_witness :
    (Caster.mk ⟨fun _ => (some ⟨42⟩, none)⟩ 0).Cast ⟨false, 9, 0⟩ 5 11 =
      (Except.ok (), [{ sendTo := 42, message := NewMessage Version.v1 Variant.cast 11 }]) :=
  (cast_success_single_handoff (Caster.mk ⟨fun _ => (some ⟨42⟩, none)⟩ 0)
      ⟨false, 9, 0⟩ 5 11 ⟨42⟩ rfl).1 rfl

/-- C6 counterexample: with the cancellation oracle firing before the event
sink accepts, `AcceptCast` on a destination equal to the local identity
returns an error and enqueues nothing, contradicting the claim that a local
destination always yields exactly one enqueued event and no error. -/
theorem accept_cast_cancel_cex :
    ((Caster.mk ⟨fun _ => (none, none)⟩ 7).AcceptCast ⟨true, 4, 100⟩ 7 11 =
      (Except.error (newErrCastingMessage 7 (CastErr.external 4)), [])) ∧
    ¬ ((Caster.mk ⟨fun _ => (none, none)⟩ 7).AcceptCast ⟨true, 4, 100⟩ 7 11 =
      (Except.ok (), [{ time := 100, message := 11 }])) := by
  constructor
  · rfl
  · intro h
    simp [Caster.AcceptCast, newErrCastingMessage] at h

/-- C6 (amended): if the destination equals the local identity and the
cancellation signal does not fire before the event sink accepts, exactly one
received event carrying the body is enqueued and no error is returned; if the
destination is local but cancellation fires first, `AcceptCast` returns the
casting-failed error wrapping the cancellation cause and the sink receives
nothing; if the destination is not the local identity, `AcceptCast` returns
the casting-failed error whose cause states that no forwarding path exists
and the sink receives nothing. -/
theorem accept_cast_local_only (c : Caster) (ctx : CastCtx) (dest : PeerID)
    (body : MessageBody) :
    (dest = c.me → ctx.doneBeforeSend = false →
      c.AcceptCast ctx dest body = (Except.ok (), [{ time := ctx.now, message := body }])) ∧
    (dest = c.me → ctx.doneBeforeSend = true →
      c.AcceptCast ctx dest body =
        (Except.error (newErrCastingMessage dest (CastErr.external ctx.errCode)), [])) ∧
    (dest ≠ c.me →
      c.AcceptCast ctx dest body =
        (Except.error (newErrCastingMessage dest CastErr.noPeerForForwarding), [])) := by
  refine ⟨?_, ?_, ?_⟩
  · intro hme hdone
    simp [Caster.AcceptCast, hme, hdone]
  · intro hme hdone
    simp [Caster.AcceptCast, hme, hdone]
  · intro hme
    simp [Caster.AcceptCast, hme]

/-- Witness for C6 (amended): a concrete local delivery enqueues exactly one
event with the body and succeeds. -/
theorem accept_cast_local_only_witness :
    (Caster.mk ⟨fun _ => (none, none)⟩ 7).AcceptCast ⟨false, 4, 100⟩ 7 11 =
      (Except.ok (), [{ time := 100, message := 11 }]) :=
  ((accept_cast_local_only (Caster.mk ⟨fun _ => (none, none)⟩ 7)
      ⟨false, 4, 100⟩ 7 11).1) rfl rfl

/-! ## Listener engine (`tcp.ListenWithListener`)

The accept loop is embedded as a recursion over a finite list of iteration
inputs (`Step`): at the top of each iteration the loop observes whether the
context is done, then an accept result.  An admitted connection spawns a
goroutine whose behaviour — handle call, deferred cleanup, deferred close,
run in LIFO order of the defers, also when the handle panics — is recorded
as that task's own event trace; the loop's sequential events form a
separate trace.  Exhausting the step list models a loop that is still
running (no return value). -/

/-- Connections, identified by naturals (each accept yields one). -/
abbrev Conn := Nat

/-- How a user handle callback terminates on a given connection. -/
inductive HandleOutcome where
  | normal
  | panicked
deriving DecidableEq, Repr

/-- Admission policies: `allow(conn)` returns an error (`none` means admit)
and whether the returned cleanup function is non-nil. -/
abbrev Allow := Conn → Option Nat × Bool

/-- Observable events of the listener engine and its spawned tasks. -/
inductive Ev where
  | handleErrCall (e : Nat)
  | handleStart (c : Conn)
  | handleRet (c : Conn) (o : HandleOutcome)
  | cleanupRun (c : Conn)
  | connClose (c : Conn)
  | listenerClose
deriving DecidableEq, Repr

/-- Return values of `ListenWithListener`. -/
inductive LErr where
  | nilHandle
  | ctxErr (e : Nat)
deriving DecidableEq, Repr

/-- Result of one `listener.Accept()` call: an error code or a connection. -/
inductive AcceptRes where
  | err (e : Nat)
  | conn (c : Conn)
deriving DecidableEq, Repr

/-- One accept-loop iteration's inputs: whether `ctx.Done()` is observed at
the top of the iteration (with the cause `ctx.Err()` would report), and the
result of `listener.Accept()`. -/
structure Step where
  ctxDone : Option Nat
  accept : AcceptRes
deriving DecidableEq, Repr

/-- Output of a run of the accept loop: the loop's own sequential event
trace, one event trace per spawned goroutine, and the return value (`none`
while the loop is still running). -/
structure ListenOutput where
  loopTrace : List Ev
  tasks : List (List Ev)
  ret : Option LErr
deriving DecidableEq, Repr

/-- Trace of the goroutine spawned when no admission policy is configured:
`defer conn.Close()` then `handle(conn)`, so the close runs when the handle
returns or panics. -/
def taskNoPolicy (ho : Conn → HandleOutcome) (c : Conn) : List Ev :=
  [Ev.handleStart c, Ev.handleRet c (ho c), Ev.connClose c]

/-- Trace of the goroutine spawned for a connection the policy admitted:
`defer conn.Close()` is registered first and the deferred cleanup wrapper
second, so after the handle returns or panics the defers run in LIFO order —
the cleanup action (when non-nil) and then the close. -/
def taskAdmitted (ho : Conn → HandleOutcome) (cleanup : Bool) (c : Conn) : List Ev :=
  [Ev.handleStart c, Ev.handleRet c (ho c)]
    ++ (if cleanup then [Ev.cleanupRun c] else [])
    ++ [Ev.connClose c]

/-- The accept loop of `ListenWithListener`, one `Step` per iteration: exit
with `ctx.Err()` when cancellation is observed (running the deferred
`listener.Close()`), report accept errors through `handleErr` and continue,
spawn a handling goroutine for admitted connections, and close rejected
connections inline before the next iteration. -/
def acceptLoop (allow : Option Allow) (ho : Conn → HandleOutcome) :
    List Step → ListenOutput
  | [] => { loopTrace := [], tasks := [], ret := none }
  | step :: rest =>
    match step.ctxDone with
    | some e => { loopTrace := [Ev.listenerClose], tasks := [], ret := some (LErr.ctxErr e) }
    | none =>
      match step.accept with
      | AcceptRes.err e =>
          let o := acceptLoop allow ho rest
          { loopTrace := Ev.handleErrCall e :: o.loopTrace, tasks := o.tasks, ret := o.ret }
      | AcceptRes.conn c =>
          match allow with
          | none =>
              let o := acceptLoop none ho rest
              { loopTrace := o.loopTrace, tasks := taskNoPolicy ho c :: o.tasks, ret := o.ret }
          | some f =>
              match f c with
              | (none, cleanup) =>
                  let o := acceptLoop (some f) ho rest
                  { loopTrace := o.loopTrace,
                    tasks := taskAdmitted ho cleanup c :: o.tasks, ret := o.ret }
              | (some _, _) =>
                  let o := acceptLoop (some f) ho rest
                  { loopTrace := Ev.connClose c :: o.loopTrace, tasks := o.tasks, ret := o.ret }

/-- ListenWithListener: return the nil-handle configuration error before
registering the deferred listener close (so the listener stays open and no
accept is attempted); otherwise run the accept loop. -/
def ListenWithListener (handle : Option (Conn → HandleOutcome)) (allow : Option Allow)
    (steps : List Step) : ListenOutput :=
  match handle with
  | none => { loopTrace := [], tasks := [], ret := some LErr.nilHandle }
  | some ho => acceptLoop allow ho steps

/-- Occurrence count of an element in a list. -/
def countOf {α : Type} [DecidableEq α] (a : α) : List α → Nat
  | [] => 0
  | x :: xs => (if x = a then 1 else 0) + countOf a xs

/-- Concatenation of all spawned task traces. -/
def joinAll : List (List Ev) → List Ev
  | [] => []
  | t :: ts => t ++ joinAll ts

/-- Every event of a run: the loop's own trace plus all task traces. -/
def allEvents (o : ListenOutput) : List Ev :=
  o.loopTrace ++ joinAll o.tasks

/-- Connections returned by `listener.Accept()` before the loop observes
cancellation. -/
def acceptedConns : List Step → List Conn
  | [] => []
  | step :: rest =>
    match step.ctxDone with
    | some _ => []
    | none =>
      match step.accept with
      | AcceptRes.err _ => acceptedConns rest
      | AcceptRes.conn c => c :: acceptedConns rest

/-- Connections the loop admits (accepted and not rejected by the policy)
before it observes cancellation. -/
def admittedConns (allow : Option Allow) : List Step → List Conn
  | [] => []
  | step :: rest =>
    match step.ctxDone with
    | some _ => []
    | none =>
      match step.accept with
      | AcceptRes.err _ => admittedConns allow rest
      | AcceptRes.conn c =>
        match allow with
        | none => c :: admittedConns allow rest
        | some f =>
          match f c with
          | (none, _) => c :: admittedConns allow rest
          | (some _, _) => admittedConns allow rest

/-! ### Helper lemmas about the listener embedding -/

theorem countOf_append {α : Type} [DecidableEq α] (a : α) (l₁ l₂ : List α) :
    countOf a (l₁ ++ l₂) = countOf a l₁ + countOf a l₂ := by
  induction l₁ with
  | nil => simp [countOf]
  | cons x xs ih => simp [countOf, ih]; omega

theorem countOf_eq_zero_of_not_mem {α : Type} [DecidableEq α] {a : α} {l : List α}
    (h : a ∉ l) : countOf a l = 0 := by
  induction l with
  | nil => rfl
  | cons x xs ih =>
      simp only [List.mem_cons, not_or] at h
      have hxa : ¬ x = a := fun hx => h.1 hx.symm
      simp [countOf, ih h.2, hxa]

theorem one_le_countOf_of_mem {α : Type} [DecidableEq α] {a : α} {l : List α}
    (h : a ∈ l) : 1 ≤ countOf a l := by
  induction l with
  | nil => cases h
  | cons x xs ih =>
      rcases List.mem_cons.mp h with h | h
      · simp [countOf, h]
      · have := ih h
        simp [countOf]
        omega

theorem countOf_le_one_of_nodup {α : Type} [DecidableEq α] {a : α} {l : List α}
    (h : l.Nodup) : countOf a l ≤ 1 := by
  induction l with
  | nil => simp [countOf]
  | cons x xs ih =>
      rcases List.nodup_cons.mp h with ⟨hx, hxs⟩
      by_cases hxa : x = a
      · subst hxa
        simp [countOf, countOf_eq_zero_of_not_mem hx]
      · simp [countOf, hxa, ih hxs]

theorem countOf_le_joinAll {a : Ev} {t : List Ev} {ts : List (List Ev)}
    (h : t ∈ ts) : countOf a t ≤ countOf a (joinAll ts) := by
  induction ts with
  | nil => cases h
  | cons u us ih =>
      rcases List.mem_cons.mp h with h | h
      · subst h
        simp [joinAll, countOf_append]
      · have := ih h
        simp [joinAll, countOf_append]
        omega

theorem countOf_handleStart_taskNoPolicy (ho : Conn → HandleOutcome) (c c' : Conn) :
    countOf (Ev.handleStart c) (taskNoPolicy ho c') = if c' = c then 1 else 0 := by
  by_cases h : c' = c <;> simp [taskNoPolicy, countOf, h]

theorem countOf_handleStart_taskAdmitted (ho : Conn → HandleOutcome) (cl : Bool)
    (c c' : Conn) :
    countOf (Ev.handleStart c) (taskAdmitted ho cl c') = if c' = c then 1 else 0 := by
  by_cases h : c' = c <;> cases cl <;> simp [taskAdmitted, countOf, h]

theorem countOf_connClose_taskNoPolicy (ho : Conn → HandleOutcome) (c c' : Conn) :
    countOf (Ev.connClose c) (taskNoPolicy ho c') = if c' = c then 1 else 0 := by
  by_cases h : c' = c <;> simp [taskNoPolicy, countOf, h]

theorem countOf_connClose_taskAdmitted (ho : Conn → HandleOutcome) (cl : Bool)
    (c c' : Conn) :
    countOf (Ev.connClose c) (taskAdmitted ho cl c') = if c' = c then 1 else 0 := by
  by_cases h : c' = c <;> cases cl <;> simp [taskAdmitted, countOf, h]

theorem acceptLoop_append (allow : Option Allow) (ho : Conn → HandleOutcome)
    (pre rest : List Step) (h : ∀ s ∈ pre, s.ctxDone = none) :
    acceptLoop allow ho (pre ++ rest) =
      { loopTrace := (acceptLoop allow ho pre).loopTrace
          ++ (acceptLoop allow ho rest).loopTrace,
        tasks := (acceptLoop allow ho pre).tasks ++ (acceptLoop allow ho rest).tasks,
        ret := (acceptLoop allow ho rest).ret } := by
  induction pre with
  | nil => simp [acceptLoop]
  | cons s pre ih =>
      have hs : s.ctxDone = none := h s (List.mem_cons_self s pre)
      have h' : ∀ x ∈ pre, x.ctxDone = none := fun x hx => h x (List.mem_cons_of_mem s hx)
      cases hacc : s.accept with
      | err e =>
          simp [List.cons_append, acceptLoop, hs, hacc, ih h']
      | conn c =>
          cases allow with
          | none => simp [List.cons_append, acceptLoop, hs, hacc, ih h']
          | some f =>
              rcases hfc : f c with ⟨oe, cl⟩
              cases oe with
              | none => simp [List.cons_append, acceptLoop, hs, hacc, hfc, ih h']
              | some e => simp [List.cons_append, acceptLoop, hs, hacc, hfc, ih h']

theorem mem_tasks_shape (allow : Option Allow) (ho : Conn → HandleOutcome)
    (steps : List Step) (t : List Ev)
    (h : t ∈ (acceptLoop allow ho steps).tasks) :
    ∃ c, t = taskNoPolicy ho c ∨ ∃ cl, t = taskAdmitted ho cl c := by
  induction steps with
  | nil => simp [acceptLoop] at h
  | cons s rest ih =>
      cases hd : s.ctxDone with
      | some e => simp [acceptLoop, hd] at h
      | none =>
          cases hacc : s.accept with
          | err e =>
              simp only [acceptLoop, hd, hacc] at h
              exact ih h
          | conn c =>
              cases allow with
              | none =>
                  simp only [acceptLoop, hd, hacc, List.mem_cons] at h
                  rcases h with h | h
                  · exact ⟨c, Or.inl h⟩
                  · exact ih h
              | some f =>
                  rcases hfc : f c with ⟨oe, cl⟩
                  cases oe with
                  | none =>
                      simp only [acceptLoop, hd, hacc, hfc, List.mem_cons] at h
                      rcases h with h | h
                      · exact ⟨c, Or.inr ⟨cl, h⟩⟩
                      · exact ih h
                  | some e =>
                      simp only [acceptLoop, hd, hacc, hfc] at h
                      exact ih h

theorem countOf_handleStart_allEvents (allow : Option Allow) (ho : Conn → HandleOutcome)
    (steps : List Step) (c : Conn) :
    countOf (Ev.handleStart c) (allEvents (acceptLoop allow ho steps)) =
      countOf c (admittedConns allow steps) := by
  induction steps with
  | nil => rfl
  | cons s rest ih =>
      cases hd : s.ctxDone with
      | some e =>
          simp [acceptLoop, admittedConns, hd, allEvents, joinAll, countOf]
      | none =>
          cases hacc : s.accept with
          | err e =>
              simp [acceptLoop, admittedConns, hd, hacc, allEvents, joinAll,
                countOf_append, countOf] at ih ⊢
              omega
          | conn c' =>
              cases allow with
              | none =>
                  by_cases hcc : c' = c <;>
                    simp [acceptLoop, admittedConns, hd, hacc, allEvents, joinAll,
                      countOf_append, countOf, taskNoPolicy, hcc] at ih ⊢ <;>
                    omega
              | some f =>
                  rcases hfc : f c' with ⟨oe, cl⟩
                  cases oe with
                  | none =>
                      by_cases hcc : c' = c
                      · subst hcc
                        cases cl <;>
                          simp [acceptLoop, admittedConns, hd, hacc, hfc, allEvents, joinAll,
                            countOf_append, countOf, taskAdmitted] at ih ⊢ <;>
                          omega
                      · cases cl <;>
                          simp [acceptLoop, admittedConns, hd, hacc, hfc, allEvents, joinAll,
                            countOf_append, countOf, taskAdmitted, hcc] at ih ⊢ <;>
                          omega
                  | some e =>
                      by_cases hcc : c' = c
                      · subst hcc
                        simp [acceptLoop, admittedConns, hd, hacc, hfc, allEvents, joinAll,
                          countOf_append, countOf] at ih ⊢
                        omega
                      · simp [acceptLoop, admittedConns, hd, hacc, hfc, allEvents, joinAll,
                          countOf_append, countOf, hcc] at ih ⊢
                        omega

theorem countOf_connClose_allEvents (allow : Option Allow) (ho : Conn → HandleOutcome)
    (steps : List Step) (c : Conn) :
    countOf (Ev.connClose c) (allEvents (acceptLoop allow ho steps)) =
      countOf c (acceptedConns steps) := by
  induction steps with
  | nil => rfl
  | cons s rest ih =>
      cases hd : s.ctxDone with
      | some e =>
          simp [acceptLoop, acceptedConns, hd, allEvents, joinAll, countOf]
      | none =>
          cases hacc : s.accept with
          | err e =>
              simp [acceptLoop, acceptedConns, hd, hacc, allEvents, joinAll,
                countOf_append, countOf] at ih ⊢
              omega
          | conn c' =>
              cases allow with
              | none =>
                  by_cases hcc : c' = c <;>
                    simp [acceptLoop, acceptedConns, hd, hacc, allEvents, joinAll,
                      countOf_append, countOf, taskNoPolicy, hcc] at ih ⊢ <;>
                    omega
              | some f =>
                  rcases hfc : f c' with ⟨oe, cl⟩
                  cases oe with
                  | none =>
                      by_cases hcc : c' = c
                      · subst hcc
                        cases cl <;>
                          simp [acceptLoop, acceptedConns, hd, hacc, hfc, allEvents, joinAll,
                            countOf_append, countOf, taskAdmitted] at ih ⊢ <;>
                          omega
                      · cases cl <;>
                          simp [acceptLoop, acceptedConns, hd, hacc, hfc, allEvents, joinAll,
                            countOf_append, countOf, taskAdmitted, hcc] at ih ⊢ <;>
                          omega
                  | some e =>
                      by_cases hcc : c' = c
                      · subst hcc
                        simp [acceptLoop, acceptedConns, hd, hacc, hfc, allEvents, joinAll,
                          countOf_append, countOf] at ih ⊢
                        omega
                      · simp [acceptLoop, acceptedConns, hd, hacc, hfc, allEvents, joinAll,
                          countOf_append, countOf, hcc] at ih ⊢
                        omega

theorem countOf_admitted_le_accepted (allow : Option Allow) (steps : List Step) (c : Conn) :
    countOf c (admittedConns allow steps) ≤ countOf c (acceptedConns steps) := by
  induction steps with
  | nil => exact Nat.le_refl _
  | cons s rest ih =>
      cases hd : s.ctxDone with
      | some e => simp [admittedConns, acceptedConns, hd]
      | none =>
          cases hacc : s.accept with
          | err e => simpa [admittedConns, acceptedConns, hd, hacc] using ih
          | conn c' =>
              cases allow with
              | none => simp [admittedConns, acceptedConns, hd, hacc, countOf]; omega
              | some f =>
                  rcases hfc : f c' with ⟨oe, cl⟩
                  cases oe with
                  | none =>
                      simp [admittedConns, acceptedConns, hd, hacc, hfc, countOf]
                      omega
                  | some e =>
                      simp [admittedConns, acceptedConns, hd, hacc, hfc, countOf]
                      omega

theorem joinAll_append (ts us : List (List Ev)) :
    joinAll (ts ++ us) = joinAll ts ++ joinAll us := by
  induction ts with
  | nil => rfl
  | cons t ts ih => simp [joinAll, ih]

theorem countOf_cleanupRun_loopTrace (allow : Option Allow) (ho : Conn → HandleOutcome)
    (steps : List Step) (c : Conn) :
    countOf (Ev.cleanupRun c) (acceptLoop allow ho steps).loopTrace = 0 := by
  induction steps with
  | nil => rfl
  | cons s rest ih =>
      cases hd : s.ctxDone with
      | some e => simp [acceptLoop, hd, countOf]
      | none =>
          cases hacc : s.accept with
          | err e => simp [acceptLoop, hd, hacc, countOf, ih]
          | conn c' =>
              cases allow with
              | none => simpa [acceptLoop, hd, hacc] using ih
              | some f =>
                  rcases hfc : f c' with ⟨oe, cl⟩
                  cases oe with
                  | none => simpa [acceptLoop, hd, hacc, hfc] using ih
                  | some e => simp [acceptLoop, hd, hacc, hfc, countOf, ih]

theorem handleStart_mem_taskNoPolicy {ho : Conn → HandleOutcome} {c c' : Conn}
    (h : Ev.handleStart c ∈ taskNoPolicy ho c') : c' = c := by
  simp [taskNoPolicy] at h
  exact h.symm

theorem handleStart_mem_taskAdmitted {ho : Conn → HandleOutcome} {cl : Bool} {c c' : Conn}
    (h : Ev.handleStart c ∈ taskAdmitted ho cl c') : c' = c := by
  cases cl <;> simp [taskAdmitted] at h <;> exact h.symm

/-! ### Theorems about the listener engine -/

/-- C10: calling `ListenWithListener` with a nil handle function returns the
nil-handle configuration error immediately: no event happens at all — in
particular the listener is not closed (the deferred close is only registered
after the nil-handle check) and no accept is ever attempted, and no
goroutine is spawned. -/
theorem listen_nil_handle_config_error (allow : Option Allow) (steps : List Step) :
    ListenWithListener none allow steps =
      { loopTrace := [], tasks := [], ret := some LErr.nilHandle } := rfl

/-- C2: with or without an admission policy, and whether the handle callback
returns normally or panics, a connection is handed to the handle callback at
most once across the whole run (assuming each accept yields a fresh
connection), and for every spawned task the connection's close operation runs
exactly once in the whole run, after the handle callback has terminated (the
handle-return event precedes the close event in that task's trace). -/
theorem listen_handle_once_close_once (ho : Conn → HandleOutcome) (allow : Option Allow)
    (steps : List Step) (c : Conn) (hnodup : (acceptedConns steps).Nodup) :
    countOf (Ev.handleStart c) (allEvents (ListenWithListener (some ho) allow steps)) ≤ 1 ∧
    ∀ t ∈ (ListenWithListener (some ho) allow steps).tasks,
      Ev.handleStart c ∈ t →
        countOf (Ev.connClose c) (allEvents (ListenWithListener (some ho) allow steps)) = 1 ∧
        [Ev.handleRet c (ho c), Ev.connClose c].Sublist t := by
  have hacc_le : countOf c (acceptedConns steps) ≤ 1 := countOf_le_one_of_nodup hnodup
  constructor
  · show countOf (Ev.handleStart c) (allEvents (acceptLoop allow ho steps)) ≤ 1
    rw [countOf_handleStart_allEvents]
    exact le_trans (countOf_admitted_le_accepted allow steps c) hacc_le
  · intro t ht hst
    have ht' : t ∈ (acceptLoop allow ho steps).tasks := ht
    have hone : 1 ≤ countOf (Ev.handleStart c) (allEvents (acceptLoop allow ho steps)) := by
      have h1 : 1 ≤ countOf (Ev.handleStart c) t := one_le_countOf_of_mem hst
      have h2 : countOf (Ev.handleStart c) t ≤
          countOf (Ev.handleStart c) (joinAll (acceptLoop allow ho steps).tasks) :=
        countOf_le_joinAll ht'
      have h3 : countOf (Ev.handleStart c) (joinAll (acceptLoop allow ho steps).tasks) ≤
          countOf (Ev.handleStart c) (allEvents (acceptLoop allow ho steps)) := by
        simp [allEvents, countOf_append]
      omega
    rw [countOf_handleStart_allEvents] at hone
    have haccepted : countOf c (acceptedConns steps) = 1 := by
      have := countOf_admitted_le_accepted allow steps c
      omega
    constructor
    · show countOf (Ev.connClose c) (allEvents (acceptLoop allow ho steps)) = 1
      rw [countOf_connClose_allEvents, haccepted]
    · rcases mem_tasks_shape allow ho steps t ht' with ⟨c', hsh | ⟨cl, hsh⟩⟩
      · have hcc : c' = c := handleStart_mem_taskNoPolicy (hsh ▸ hst)
        subst hcc
        subst hsh
        exact List.Sublist.cons _ (List.Sublist.refl _)
      · have hcc : c' = c := handleStart_mem_taskAdmitted (hsh ▸ hst)
        subst hcc
        subst hsh
        cases cl with
        | false =>
            simp only [taskAdmitted, Bool.false_eq_true, if_false, List.nil_append]
            exact List.Sublist.cons _ (List.Sublist.refl _)
        | true =>
            simp only [taskAdmitted, if_true, List.cons_append, List.nil_append]
            exact List.Sublist.cons _
              (List.Sublist.cons₂ _ (List.Sublist.cons _ (List.Sublist.refl _)))

/-- Witness for C2: a run accepting one connection with no policy, on which
the handle-start count is at most one and the close count is exactly one. -/
theorem listen_handle_once_close_once_witness :
    countOf (Ev.handleStart 0)
      (allEvents (ListenWithListener (some fun _ => HandleOutcome.normal) none
        [{ ctxDone := none, accept := AcceptRes.conn 0 }])) ≤ 1 ∧
    countOf (Ev.connClose 0)
      (allEvents (ListenWithListener (some fun _ => HandleOutcome.normal) none
        [{ ctxDone := none, accept := AcceptRes.conn 0 }])) = 1 := by
  have h := listen_handle_once_close_once (fun _ => HandleOutcome.normal) none
    [{ ctxDone := none, accept := AcceptRes.conn 0 }] 0 (by decide)
  refine ⟨h.1, ?_⟩
  have hm := h.2 (taskNoPolicy (fun _ => HandleOutcome.normal) 0) (by decide) (by decide)
  exact hm.1

/-- Predicate for the cleanup-after-close ordering a task trace would have to
satisfy for the claim that the cleanup action runs after the connection's
close: every cleanup event occurs at a later position than every close event. -/
def cleanupAfterClose (t : List Ev) : Prop :=
  ∀ i j : Fin t.length,
    (match t.get i with | Ev.cleanupRun _ => true | _ => false) = true →
    (match t.get j with | Ev.connClose _ => true | _ => false) = true →
    j < i

/-- C1 counterexample: a run admitting one connection under a policy that
returns a non-nil cleanup action spawns the task whose trace runs the defers
in LIFO order — handle returns, then cleanup, then close — so the cleanup
action does not run after the close, contradicting the claimed ordering
(handle returns, then close, then cleanup). -/
theorem listen_cleanup_after_close_cex :
    (ListenWithListener (some fun _ => HandleOutcome.normal) (some fun _ => (none, true))
        [{ ctxDone := none, accept := AcceptRes.conn 0 }]).tasks =
      [[Ev.handleStart 0, Ev.handleRet 0 HandleOutcome.normal,
        Ev.cleanupRun 0, Ev.connClose 0]] ∧
    ¬ cleanupAfterClose
      [Ev.handleStart 0, Ev.handleRet 0 HandleOutcome.normal,
        Ev.cleanupRun 0, Ev.connClose 0] := by
  constructor
  · rfl
  · unfold cleanupAfterClose
    decide

/-- C1 (amended): for every inbound connection admitted by the listener with
an admission policy returning a non-nil cleanup action, the spawned task runs
the cleanup action exactly once, after the handle callback returns and before
the connection's close operation (ordering: handle returns, then cleanup,
then close — the deferred close was registered before the deferred cleanup
wrapper, so the defers run cleanup first). -/
theorem listen_cleanup_between_handle_and_close (f : Allow) (ho : Conn → HandleOutcome)
    (c : Conn) (pre rest : List Step)
    (hfc : f c = (none, true)) (hpre : ∀ s ∈ pre, s.ctxDone = none) :
    taskAdmitted ho true c ∈
      (ListenWithListener (some ho) (some f)
        (pre ++ { ctxDone := none, accept := AcceptRes.conn c } :: rest)).tasks ∧
    taskAdmitted ho true c =
      [Ev.handleStart c, Ev.handleRet c (ho c), Ev.cleanupRun c, Ev.connClose c] ∧
    countOf (Ev.cleanupRun c) (taskAdmitted ho true c) = 1 := by
  refine ⟨?_, by simp [taskAdmitted], by simp [taskAdmitted, countOf]⟩
  show taskAdmitted ho true c ∈
    (acceptLoop (some f) ho
      (pre ++ { ctxDone := none, accept := AcceptRes.conn c } :: rest)).tasks
  rw [acceptLoop_append (some f) ho pre _ hpre]
  simp [acceptLoop, hfc]

/-- Witness for C1 (amended): a concrete admitted connection whose task trace
is exactly handle start, handle return, cleanup, close. -/
theorem listen_cleanup_between_handle_and_close_witness :
    taskAdmitted (fun _ => HandleOutcome.normal) true 3 ∈
      (ListenWithListener (some fun _ => HandleOutcome.normal) (some fun _ => (none, true))
        [{ ctxDone := none, accept := AcceptRes.conn 3 }]).tasks ∧
    countOf (Ev.cleanupRun 3) (taskAdmitted (fun _ => HandleOutcome.normal) true 3) = 1 := by
  have h := listen_cleanup_between_handle_and_close (fun _ => (none, true))
    (fun _ => HandleOutcome.normal) 3 [] [] rfl (by simp)
  exact ⟨h.1, h.2.2⟩

/-- C3: for every inbound connection the policy rejects (non-nil error), the
run is the surrounding run with exactly one extra loop event — the inline
close of the rejected connection, sequentially before any event of the later
iterations: no task is spawned for it (the handle callback is never invoked),
no error event is produced for the policy error, and the loop's return value
is unchanged (the policy's error value is discarded). -/
theorem listen_reject_no_handle_close_first (f : Allow) (ho : Conn → HandleOutcome)
    (c : Conn) (e : Nat) (cl : Bool) (pre rest : List Step)
    (hfc : f c = (some e, cl)) (hpre : ∀ s ∈ pre, s.ctxDone = none) :
    ListenWithListener (some ho) (some f)
        (pre ++ { ctxDone := none, accept := AcceptRes.conn c } :: rest) =
      { loopTrace := (acceptLoop (some f) ho pre).loopTrace
          ++ Ev.connClose c :: (acceptLoop (some f) ho rest).loopTrace,
        tasks := (acceptLoop (some f) ho pre).tasks ++ (acceptLoop (some f) ho rest).tasks,
        ret := (acceptLoop (some f) ho rest).ret } := by
  show acceptLoop (some f) ho
      (pre ++ { ctxDone := none, accept := AcceptRes.conn c } :: rest) = _
  rw [acceptLoop_append (some f) ho pre _ hpre]
  simp [acceptLoop, hfc]

/-- Witness for C3: a concrete rejected connection whose run consists only of
its inline close, with no task and no return value. -/
theorem listen_reject_no_handle_close_first_witness :
    ListenWithListener (some fun _ => HandleOutcome.normal) (some fun _ => (some 9, false))
        [{ ctxDone := none, accept := AcceptRes.conn 4 }] =
      { loopTrace := [Ev.connClose 4], tasks := [], ret := none } := by
  have h := listen_reject_no_handle_close_first (fun _ => (some 9, false))
    (fun _ => HandleOutcome.normal) 4 9 false [] [] rfl (by simp)
  simpa [acceptLoop] using h

/-- C9: when the policy rejects a connection while returning a non-nil
cleanup action, the cleanup action is never invoked: compared with the run
without that connection, the rejection adds no spawned task and changes the
cleanup-event count of no connection; it only adds the inline close of the
rejected connection to the loop's own trace. -/
theorem listen_reject_discards_cleanup (f : Allow) (ho : Conn → HandleOutcome)
    (c : Conn) (e : Nat) (pre rest : List Step)
    (hfc : f c = (some e, true)) (hpre : ∀ s ∈ pre, s.ctxDone = none) :
    (ListenWithListener (some ho) (some f)
        (pre ++ { ctxDone := none, accept := AcceptRes.conn c } :: rest)).tasks =
      (ListenWithListener (some ho) (some f) (pre ++ rest)).tasks ∧
    (∀ c', countOf (Ev.cleanupRun c')
        (allEvents (ListenWithListener (some ho) (some f)
          (pre ++ { ctxDone := none, accept := AcceptRes.conn c } :: rest))) =
      countOf (Ev.cleanupRun c')
        (allEvents (ListenWithListener (some ho) (some f) (pre ++ rest)))) ∧
    (ListenWithListener (some ho) (some f)
        (pre ++ { ctxDone := none, accept := AcceptRes.conn c } :: rest)).loopTrace =
      (acceptLoop (some f) ho pre).loopTrace
        ++ Ev.connClose c :: (acceptLoop (some f) ho rest).loopTrace := by
  have h1 := acceptLoop_append (some f) ho pre
    ({ ctxDone := none, accept := AcceptRes.conn c } :: rest) hpre
  have h2 := acceptLoop_append (some f) ho pre rest hpre
  have hstep : acceptLoop (some f) ho
      ({ ctxDone := none, accept := AcceptRes.conn c } :: rest) =
      { loopTrace := Ev.connClose c :: (acceptLoop (some f) ho rest).loopTrace,
        tasks := (acceptLoop (some f) ho rest).tasks,
        ret := (acceptLoop (some f) ho rest).ret } := by
    simp [acceptLoop, hfc]
  refine ⟨?_, ?_, ?_⟩
  · show (acceptLoop (some f) ho _).tasks = (acceptLoop (some f) ho _).tasks
    rw [h1, h2, hstep]
  · intro c'
    show countOf (Ev.cleanupRun c') (allEvents (acceptLoop (some f) ho _)) =
      countOf (Ev.cleanupRun c') (allEvents (acceptLoop (some f) ho _))
    rw [h1, h2, hstep]
    simp [allEvents, countOf_append, countOf, joinAll_append]
  · show (acceptLoop (some f) ho _).loopTrace = _
    rw [h1, hstep]

/-- Witness for C9: a concrete rejected connection with a non-nil cleanup
action; the run spawns no task and its cleanup count for that connection is
unchanged (zero). -/
theorem listen_reject_discards_cleanup_witness :
    (ListenWithListener (some fun _ => HandleOutcome.normal) (some fun _ => (some 9, true))
        [{ ctxDone := none, accept := AcceptRes.conn 4 }]).tasks =
      (ListenWithListener (some fun _ => HandleOutcome.normal) (some fun _ => (some 9, true))
        ([] : List Step)).tasks ∧
    countOf (Ev.cleanupRun 4)
      (allEvents (ListenWithListener (some fun _ => HandleOutcome.normal)
        (some fun _ => (some 9, true))
        [{ ctxDone := none, accept := AcceptRes.conn 4 }])) =
      countOf (Ev.cleanupRun 4)
        (allEvents (ListenWithListener (some fun _ => HandleOutcome.normal)
          (some fun _ => (some 9, true)) ([] : List Step))) := by
  have h := listen_reject_discards_cleanup (fun _ => (some 9, true))
    (fun _ => HandleOutcome.normal) 4 9 [] [] rfl (by simp)
  exact ⟨h.1, h.2.1 4⟩

/-! ## Dialer engine (`tcp.Dial`)

The retry loop is embedded with explicit discrete time and an attempt
counter starting at 1.  Each iteration checks cancellation at the top, then
dials with a sub-deadline of `timeout(attempt)`.  A failed attempt reports
the error and blocks on the sub-context's done channel, which fires when the
full sub-deadline has elapsed since the attempt began — so the next attempt
begins at `now + max(dialDuration, timeout(attempt))` (the `max` covers a
dial that errors early, where the loop still waits out the sub-deadline, and
one that errors at the deadline itself).  A successful attempt ends the loop
permanently: the handle runs, the deferred close runs when it returns, and
the close result becomes the call's return value.  A fuel bound caps how
many iterations are simulated (`none` result = still running). -/

/-- Outcome of one `DialContext` call: an error or a connection, after the
given duration. -/
inductive DialRes where
  | fail (dur : Nat)
  | conn (dur : Nat)
deriving DecidableEq, Repr

/-- Environment of a `Dial` call: the outcome of each numbered attempt, the
close-operation result for the connection obtained at each attempt (`none`
models a nil close error), and the time at which the outer context is done
(`none` = never cancelled). -/
structure DialEnv where
  res : Nat → DialRes
  closeErr : Nat → Option Nat
  ctxDoneAt : Option Nat

/-- Observable events of the dialer. -/
inductive DialEv where
  | attemptStart (attempt now : Nat)
  | errReport (attempt : Nat)
  | handleStart (attempt : Nat)
  | handleRet (attempt : Nat)
  | connClose (attempt : Nat)
deriving DecidableEq, Repr

/-- Return values of `Dial`: the nil-handle configuration error, the wrapped
cancellation error, or the result of the deferred `conn.Close()` (which the
source assigns to the named return value, superseding a normal handle
return). -/
inductive DialRet where
  | nilHandle
  | ctxError (now : Nat)
  | closeResult (e : Option Nat)
deriving DecidableEq, Repr

/-- Whether the outer context is done at the given time. -/
def dialCtxDone (env : DialEnv) (now : Nat) : Bool :=
  match env.ctxDoneAt with
  | none => false
  | some T => decide (T ≤ now)

/-- The retry loop of `Dial`: fuel-bounded simulation of iterations, with
the attempt counter and the current time as explicit state. -/
def dialLoop (env : DialEnv) (f : Nat → Nat) :
    Nat → Nat → Nat → List DialEv × Option DialRet
  | 0, _, _ => ([], none)
  | fuel + 1, attempt, now =>
    if dialCtxDone env now then
      ([], some (DialRet.ctxError now))
    else
      match env.res attempt with
      | DialRes.fail d =>
          let next := dialLoop env f fuel (attempt + 1) (now + max d (f attempt))
          (DialEv.attemptStart attempt now :: DialEv.errReport attempt :: next.1, next.2)
      | DialRes.conn _ =>
          ([DialEv.attemptStart attempt now, DialEv.handleStart attempt,
            DialEv.handleRet attempt, DialEv.connClose attempt],
           some (DialRet.closeResult (env.closeErr attempt)))

/-- One second, the default per-attempt timeout when none is supplied. -/
def timeSecond : Nat := 1000000000

/-- Dial: the nil-handle configuration error short-circuits; a nil timeout
function defaults to a constant one-second sub-deadline; then the retry loop
runs from attempt 1 at time 0. -/
def Dial (hasHandle : Bool) (timeout : Option (Nat → Nat)) (env : DialEnv)
    (fuel : Nat) : List DialEv × Option DialRet :=
  if hasHandle then
    dialLoop env (timeout.getD fun _ => timeSecond) fuel 1 0
  else
    ([], some DialRet.nilHandle)

/-- The (attempt, start-time) pairs of the attempts begun in a dial trace,
in order. -/
def attemptStarts (tr : List DialEv) : List (Nat × Nat) :=
  tr.filterMap fun ev =>
    match ev with
    | DialEv.attemptStart a t => some (a, t)
    | _ => none

/-- Total wait accumulated by `n` consecutive failed attempts starting at
attempt `a`: each failed attempt occupies `max(dialDuration, timeout)`. -/
def waitSum (f dur : Nat → Nat) (a : Nat) : Nat → Nat
  | 0 => 0
  | n + 1 => max (dur a) (f a) + waitSum f dur (a + 1) n

/-- Sum of the backoff function over `n` consecutive attempts starting at
attempt `a`; `backoffSumFrom f 1 N` is f(1) + ... + f(N). -/
def backoffSumFrom (f : Nat → Nat) (a : Nat) : Nat → Nat
  | 0 => 0
  | n + 1 => f a + backoffSumFrom f (a + 1) n

theorem backoffSumFrom_le_waitSum (f dur : Nat → Nat) :
    ∀ (n a : Nat), backoffSumFrom f a n ≤ waitSum f dur a n := by
  intro n
  induction n with
  | zero => intro a; exact Nat.le_refl _
  | succ n ih =>
      intro a
      have h1 : f a ≤ max (dur a) (f a) := Nat.le_max_right _ _
      have h2 := ih (a + 1)
      simp only [backoffSumFrom, waitSum]
      omega

theorem dialLoop_attemptStarts_get (env : DialEnv) (f dur : Nat → Nat)
    (hfail : ∀ n, env.res n = DialRes.fail (dur n))
    (hctx : env.ctxDoneAt = none) :
    ∀ (N fuel a t : Nat), N < fuel →
      (attemptStarts (dialLoop env f fuel a t).1).get? N =
        some (a + N, t + waitSum f dur a N) := by
  intro N
  induction N with
  | zero =>
      intro fuel a t hN
      match fuel, hN with
      | fuel + 1, _ =>
        simp [dialLoop, dialCtxDone, hctx, hfail a, attemptStarts, waitSum]
  | succ N ih =>
      intro fuel a t hN
      match fuel, hN with
      | fuel + 1, hN =>
        have hN' : N < fuel := by omega
        have h := ih fuel (a + 1) (t + max (dur a) (f a)) hN'
        have hstep : (dialLoop env f (fuel + 1) a t).1 =
            DialEv.attemptStart a t :: DialEv.errReport a ::
              (dialLoop env f fuel (a + 1) (t + max (dur a) (f a))).1 := by
          simp [dialLoop, dialCtxDone, hctx, hfail a]
        rw [hstep]
        simp only [attemptStarts, List.filterMap_cons] at h ⊢
        rw [List.get?_cons_succ, h]
        have hws : waitSum f dur a (N + 1) = max (dur a) (f a) + waitSum f dur (a + 1) N := rfl
        rw [hws]
        simp only [Option.some.injEq, Prod.mk.injEq]
        exact ⟨by omega, Nat.add_assoc _ _ _⟩

/-! ### Theorems about the dialer engine -/

/-- C7: when the target never accepts (every attempt fails, with the attempt
at number n taking `dur n` before erroring) and the caller never cancels,
the dial attempts are strictly sequential: the N-th attempt begun (0-based)
carries attempt number N + 1, and it begins at time `waitSum f dur 1 N`,
which is at least f(1) + ... + f(N) — each failed attempt waits out its full
sub-deadline before the next begins. -/
theorem dial_retry_spacing (env : DialEnv) (f dur : Nat → Nat) (N fuel : Nat)
    (hfail : ∀ n, env.res n = DialRes.fail (dur n))
    (hctx : env.ctxDoneAt = none)
    (hN : N < fuel) :
    (attemptStarts (Dial true (some f) env fuel).1).get? N =
      some (N + 1, waitSum f dur 1 N) ∧
    backoffSumFrom f 1 N ≤ waitSum f dur 1 N := by
  constructor
  · have h := dialLoop_attemptStarts_get env f dur hfail hctx N fuel 1 0 hN
    simpa [Dial, Nat.add_comm] using h
  · exact backoffSumFrom_le_waitSum f dur N 1

/-- Witness for C7: three failing attempts with backoff f(n) = n and dial
duration 2; the third attempt begun has attempt number 3 and starts at time
4 ≥ f(1) + f(2) = 3. -/
theorem dial_retry_spacing_witness :
    (attemptStarts (Dial true (some fun n => n)
        (DialEnv.mk (fun _ => DialRes.fail 2) (fun _ => none) none) 3).1).get? 2 =
      some (3, waitSum (fun n => n) (fun _ => 2) 1 2) ∧
    backoffSumFrom (fun n => n) 1 2 ≤ waitSum (fun n => n) (fun _ => 2) 1 2 :=
  dial_retry_spacing (DialEnv.mk (fun _ => DialRes.fail 2) (fun _ => none) none)
    (fun n => n) (fun _ => 2) 2 3 (fun _ => rfl) rfl (by omega)

theorem dialLoop_first_success (env : DialEnv) (f : Nat → Nat)
    (hctx : env.ctxDoneAt = none) :
    ∀ (m fuel a t d : Nat),
      (∀ j, a ≤ j → j < a + m → ∃ dj, env.res j = DialRes.fail dj) →
      env.res (a + m) = DialRes.conn d →
      m < fuel →
      (dialLoop env f fuel a t).2 =
          some (DialRet.closeResult (env.closeErr (a + m))) ∧
      countOf (DialEv.handleStart (a + m)) (dialLoop env f fuel a t).1 = 1 ∧
      (∀ j, DialEv.handleStart j ∈ (dialLoop env f fuel a t).1 → j = a + m) ∧
      [DialEv.handleRet (a + m), DialEv.connClose (a + m)].Sublist
          (dialLoop env f fuel a t).1 ∧
      countOf (DialEv.connClose (a + m)) (dialLoop env f fuel a t).1 = 1 := by
  intro m
  induction m with
  | zero =>
      intro fuel a t d hfl hsucc hm
      match fuel, hm with
      | fuel + 1, _ =>
        simp only [Nat.add_zero] at hsucc ⊢
        have hloop : dialLoop env f (fuel + 1) a t =
            ([DialEv.attemptStart a t, DialEv.handleStart a,
              DialEv.handleRet a, DialEv.connClose a],
             some (DialRet.closeResult (env.closeErr a))) := by
          simp [dialLoop, dialCtxDone, hctx, hsucc]
        rw [hloop]
        refine ⟨rfl, by simp [countOf], ?_, ?_, by simp [countOf]⟩
        · intro j hj
          simp at hj
          exact hj
        · exact List.Sublist.cons _ (List.Sublist.cons _ (List.Sublist.refl _))
  | succ m ih =>
      intro fuel a t d hfl hsucc hm
      match fuel, hm with
      | fuel + 1, hm =>
        obtain ⟨d0, hd0⟩ := hfl a (Nat.le_refl a) (by omega)
        have hsucc' : env.res (a + 1 + m) = DialRes.conn d := by
          have : a + 1 + m = a + (m + 1) := by omega
          rw [this]
          exact hsucc
        have hfl' : ∀ j, a + 1 ≤ j → j < a + 1 + m → ∃ dj, env.res j = DialRes.fail dj := by
          intro j h1 h2
          exact hfl j (by omega) (by omega)
        have h := ih fuel (a + 1) (t + max d0 (f a)) d hfl' hsucc' (by omega)
        have hloop : dialLoop env f (fuel + 1) a t =
            (DialEv.attemptStart a t :: DialEv.errReport a ::
                (dialLoop env f fuel (a + 1) (t + max d0 (f a))).1,
             (dialLoop env f fuel (a + 1) (t + max d0 (f a))).2) := by
          simp [dialLoop, dialCtxDone, hctx, hd0]
        have hshift : a + 1 + m = a + (m + 1) := by omega
        rw [hshift] at h
        rw [hloop]
        refine ⟨h.1, ?_, ?_, ?_, ?_⟩
        · simpa [countOf] using h.2.1
        · intro j hj
          simp only [List.mem_cons] at hj
          rcases hj with hj | hj | hj
          · cases hj
          · cases hj
          · exact h.2.2.1 j hj
        · exact List.Sublist.cons _ (List.Sublist.cons _ h.2.2.2.1)
        · simpa [countOf] using h.2.2.2.2

/-- C8: on the first successful connection (attempt K, every earlier attempt
having failed, no cancellation), the retry loop ends permanently: the
connection is handed to the handle callback exactly once (and no other
attempt's connection ever is), the connection is closed after the handle
returns, exactly once, and the result of the close operation is surfaced as
the call's return value, superseding the successful handle return. -/
theorem dial_success_ends_loop (env : DialEnv) (f : Nat → Nat) (K fuel d : Nat)
    (hK : 1 ≤ K) (hfuel : K ≤ fuel)
    (hfail : ∀ j, 1 ≤ j → j < K → ∃ dj, env.res j = DialRes.fail dj)
    (hsucc : env.res K = DialRes.conn d)
    (hctx : env.ctxDoneAt = none) :
    (Dial true (some f) env fuel).2 =
        some (DialRet.closeResult (env.closeErr K)) ∧
    countOf (DialEv.handleStart K) (Dial true (some f) env fuel).1 = 1 ∧
    (∀ j, DialEv.handleStart j ∈ (Dial true (some f) env fuel).1 → j = K) ∧
    [DialEv.handleRet K, DialEv.connClose K].Sublist (Dial true (some f) env fuel).1 ∧
    countOf (DialEv.connClose K) (Dial true (some f) env fuel).1 = 1 := by
  rcases Nat.exists_eq_add_of_le hK with ⟨m, hm⟩
  subst hm
  have h := dialLoop_first_success env f hctx m fuel 1 0 d
    (fun j h1 h2 => hfail j h1 h2) hsucc (by omega)
  simpa [Dial] using h

/-- Witness for C8: attempt 1 fails, attempt 2 succeeds with a close error 7;
`Dial` returns the close result and the trace hands off and closes exactly
once. -/
theorem dial_success_ends_loop_witness :
    (Dial true (some fun _ => 3)
        (DialEnv.mk (fun n => if n < 2 then DialRes.fail 1 else DialRes.conn 1)
          (fun _ => some 7) none) 2).2 =
      some (DialRet.closeResult (some 7)) ∧
    countOf (DialEv.handleStart 2)
      (Dial true (some fun _ => 3)
        (DialEnv.mk (fun n => if n < 2 then DialRes.fail 1 else DialRes.conn 1)
          (fun _ => some 7) none) 2).1 = 1 := by
  have h := dial_success_ends_loop
    (DialEnv.mk (fun n => if n < 2 then DialRes.fail 1 else DialRes.conn 1)
      (fun _ => some 7) none)
    (fun _ => 3) 2 2 1 (by omega) (by omega)
    (by
      intro j h1 h2
      have hj : j = 1 := by omega
      subst hj
      exact ⟨1, rfl⟩)
    rfl rfl
  exact ⟨h.1, h.2.1⟩
